import Mathlib

/-!
Shallow embedding of the sharded concurrent map (`concurrent_map.go`, package
`cmap`).  Go strings are byte sequences, modelled as `List Nat`; Go
`interface{}` payloads are modelled by the inductive `GoValue`; a Go
`map[string]interface{}` shard is an association list; every operation that can
panic in Go (shard-index modulo by zero, slice/slice interface comparison, a
failed type assertion) returns `none`.  Locking is irrelevant to the sequential
semantics of the single-key operations and is not modelled.
-/

namespace Cmap

/-- A Go byte string (each element is one byte of the key). -/
abbrev Key := List Nat

/-- Bytes of an ASCII string literal, for concrete keys such as "ABC". -/
def strBytes (s : String) : Key := s.data.map Char.toNat

/-- A Go `interface{}` payload as stored in the map: `nil`, a string, an
integer, or a slice (`[]interface{}`). -/
inductive GoValue where
  | nil : GoValue
  | str : String → GoValue
  | int : Int → GoValue
  | arr : List GoValue → GoValue

/-- Go interface equality `a == b`: values of different dynamic kinds compare
unequal, comparable kinds compare by value, and comparing two slices panics
(`none`), exactly as the Go runtime behaves on `interface{}` operands. -/
def goEq : GoValue → GoValue → Option Bool
  | GoValue.arr _, GoValue.arr _ => none
  | GoValue.nil, GoValue.nil => some true
  | GoValue.str a, GoValue.str b => some (a == b)
  | GoValue.int a, GoValue.int b => some (a == b)
  | _, _ => some false

/-- `fnv32`'s loop: `for i := 0; i < len(key); i++ { hash *= prime32; hash ^= uint32(key[i]) }`,
with the `uint32` multiply wrapping modulo 4294967296. -/
def fnv32Go : Key → Nat → Nat
  | [], hash => hash
  | b :: rest, hash => fnv32Go rest (Nat.xor ((hash * 16777619) % 4294967296) b)

/-- `fnv32(key string) uint32` from the source: hash starts at 2166136261 and
the loop above consumes the key's bytes in order. -/
def fnv32 (key : Key) : Nat := fnv32Go key 2166136261

/-- The hash algorithm exactly as the spec words it: initialize
`h = 2166136261`; for each byte `b` in order, `h = h * 16777619` (unsigned
32-bit wraparound multiply) then `h = h XOR b`; return `h`. -/
def fnv32SpecAlg (key : Key) : Nat :=
  key.foldl (fun h b => Nat.xor ((h * 16777619) % 2 ^ 32) b) 2166136261

/-- Modelled from the spec: the repository bundles no FNV-1a implementation
(its test imports Go's `hash/fnv` package, outside `src/`), and the spec
appeals to "a standard FNV-1a implementation".  Standard FNV-1a XORs the byte
into the hash first and then multiplies by 16777619, modulo 2^32. -/
def fnv1aRef (key : Key) : Nat :=
  key.foldl (fun h b => (Nat.xor h b * 16777619) % 2 ^ 32) 2166136261

/-- One shard's `items map[string]interface{}` as an association list. -/
abbrev Shard := List (Key × GoValue)

/-- Go map read `v, ok := items[key]` (first binding wins). -/
def shardLookup : Shard → Key → Option GoValue
  | [], _ => none
  | (k2, v2) :: rest, k => if k2 = k then some v2 else shardLookup rest k

/-- Go map write `items[key] = v`: replace the binding if present, otherwise
add a new one. -/
def shardInsert : Shard → Key → GoValue → Shard
  | [], k, v => [(k, v)]
  | (k2, v2) :: rest, k, v =>
      if k2 = k then (k, v) :: rest else (k2, v2) :: shardInsert rest k v

/-- Go map delete `delete(items, key)`. -/
def shardErase : Shard → Key → Shard
  | [], _ => []
  | (k2, v2) :: rest, k =>
      if k2 = k then shardErase rest k else (k2, v2) :: shardErase rest k

/-- `ConcurrentHashMap{Shards int, HashMap ConcurrentMap}` with
`ConcurrentMap = []*ConcurrentMapShared`. -/
structure ConcurrentHashMap where
  Shards : Nat
  HashMap : List Shard

/-- `New(shards int)`: `make(ConcurrentMap, shards)` panics on a negative
length (`none`); otherwise every shard starts with an empty map.  No further
validation is performed. -/
def New (shards : Int) : Option ConcurrentHashMap :=
  if shards < 0 then none
  else some { Shards := shards.toNat, HashMap := List.replicate shards.toNat [] }

/-- The shard index `uint(fnv32(key)) % uint(m.Shards)` computed by
`GetShard`; Go's modulo by zero panics (`none`) when `Shards` is zero. -/
def shardIdx (m : ConcurrentHashMap) (key : Key) : Option Nat :=
  if m.Shards = 0 then none else some (fnv32 key % m.Shards)

/-- `GetShard(key)`: `m.HashMap[uint(fnv32(key))%uint(m.Shards)]` (an
out-of-range index also panics). -/
def GetShard (m : ConcurrentHashMap) (key : Key) : Option Shard :=
  (shardIdx m key).bind fun i => m.HashMap[i]?

/-- The presence/value view of one key: what `shard.items[key]` yields on the
key's shard (`none` only when `GetShard` itself panics). -/
def tableLookup (m : ConcurrentHashMap) (key : Key) : Option (Option GoValue) :=
  (GetShard m key).bind fun s => some (shardLookup s key)

/-- `Set(key, value)`: unconditional `shard.items[key] = value`. -/
def Set (m : ConcurrentHashMap) (key : Key) (value : GoValue) :
    Option ConcurrentHashMap :=
  (shardIdx m key).bind fun i =>
    (m.HashMap[i]?).bind fun s =>
      some { m with HashMap := m.HashMap.set i (shardInsert s key value) }

/-- `Get(key) (interface{}, bool)`: returns the stored value and `true`, or
Go's `nil` zero value and `false` when absent. -/
def Get (m : ConcurrentHashMap) (key : Key) : Option (GoValue × Bool) :=
  (GetShard m key).bind fun s =>
    match shardLookup s key with
    | some v => some (v, true)
    | none => some (GoValue.nil, false)

/-- `Remove(key)`: `delete(shard.items, key)`. -/
def Remove (m : ConcurrentHashMap) (key : Key) : Option ConcurrentHashMap :=
  (shardIdx m key).bind fun i =>
    (m.HashMap[i]?).bind fun s =>
      some { m with HashMap := m.HashMap.set i (shardErase s key) }

/-- `Pop(key)`: reads `v, exists := shard.items[key]`, always deletes, and
returns the pair (Go's `nil` and `false` when absent). -/
def Pop (m : ConcurrentHashMap) (key : Key) :
    Option (GoValue × Bool × ConcurrentHashMap) :=
  (shardIdx m key).bind fun i =>
    (m.HashMap[i]?).bind fun s =>
      match shardLookup s key with
      | some v =>
          some (v, true, { m with HashMap := m.HashMap.set i (shardErase s key) })
      | none =>
          some (GoValue.nil, false,
            { m with HashMap := m.HashMap.set i (shardErase s key) })

/-- `SetIfAbsent(key, value) bool`: stores only when absent and returns `!ok`. -/
def SetIfAbsent (m : ConcurrentHashMap) (key : Key) (value : GoValue) :
    Option (Bool × ConcurrentHashMap) :=
  (shardIdx m key).bind fun i =>
    (m.HashMap[i]?).bind fun s =>
      match shardLookup s key with
      | some _ => some (false, m)
      | none =>
          some (true, { m with HashMap := m.HashMap.set i (shardInsert s key value) })

/-- `SetIfPresent(key, newValue, oldValue) bool`: `ok = ok && (val == oldValue)`
(short-circuit, so the interface comparison — which may panic — only runs when
the key is present), then stores `newValue` when `ok`. -/
def SetIfPresent (m : ConcurrentHashMap) (key : Key) (newValue oldValue : GoValue) :
    Option (Bool × ConcurrentHashMap) :=
  (shardIdx m key).bind fun i =>
    (m.HashMap[i]?).bind fun s =>
      match shardLookup s key with
      | none => some (false, m)
      | some val =>
          (goEq val oldValue).bind fun eq =>
            if eq then
              some (true,
                { m with HashMap := m.HashMap.set i (shardInsert s key newValue) })
            else some (false, m)

/-- `AddIfPresent(key, value) bool`: when present, the type assertion
`val.([]interface{})` panics unless the stored value is a slice, which then
gets `value` appended; when absent, `value` itself is stored unwrapped. -/
def AddIfPresent (m : ConcurrentHashMap) (key : Key) (value : GoValue) :
    Option (Bool × ConcurrentHashMap) :=
  (shardIdx m key).bind fun i =>
    (m.HashMap[i]?).bind fun s =>
      match shardLookup s key with
      | some (GoValue.arr xs) =>
          some (true,
            { m with
                HashMap := m.HashMap.set i
                  (shardInsert s key (GoValue.arr (xs ++ [value]))) })
      | some _ => none
      | none =>
          some (false, { m with HashMap := m.HashMap.set i (shardInsert s key value) })

/-- The `UpsertCb` callback type
`func(exist bool, valueInMap interface{}, newValue interface{}) interface{}`. -/
abbrev UpsertCb := Bool → GoValue → GoValue → GoValue

/-- `Upsert(key, value, cb)`: reads `v, ok := shard.items[key]` (with `v` the
`nil` zero value when absent), computes `res = cb(ok, v, value)`, stores `res`
and returns it. -/
def Upsert (m : ConcurrentHashMap) (key : Key) (value : GoValue) (cb : UpsertCb) :
    Option (GoValue × ConcurrentHashMap) :=
  (shardIdx m key).bind fun i =>
    (m.HashMap[i]?).bind fun s =>
      match shardLookup s key with
      | some v =>
          some (cb true v value,
            { m with HashMap := m.HashMap.set i (shardInsert s key (cb true v value)) })
      | none =>
          some (cb false GoValue.nil value,
            { m with
                HashMap := m.HashMap.set i
                  (shardInsert s key (cb false GoValue.nil value)) })

/-- `UpdateCb(key, value, cb) bool`: only when the key is present does it run
`cb(true, v, value)` and store the result; otherwise the shard is untouched and
the callback is never invoked. -/
def UpdateCb (m : ConcurrentHashMap) (key : Key) (value : GoValue) (cb : UpsertCb) :
    Option (Bool × ConcurrentHashMap) :=
  (shardIdx m key).bind fun i =>
    (m.HashMap[i]?).bind fun s =>
      match shardLookup s key with
      | some v =>
          some (true,
            { m with HashMap := m.HashMap.set i (shardInsert s key (cb true v value)) })
      | none => some (false, m)

/-- `Update(key, value) bool`: stores only when the key is present. -/
def Update (m : ConcurrentHashMap) (key : Key) (value : GoValue) :
    Option (Bool × ConcurrentHashMap) :=
  (shardIdx m key).bind fun i =>
    (m.HashMap[i]?).bind fun s =>
      match shardLookup s key with
      | some _ =>
          some (true, { m with HashMap := m.HashMap.set i (shardInsert s key value) })
      | none => some (false, m)

/-- The append-style combiner of the repository's Upsert test: wrap the new
value in a fresh one-element slice when the key was absent, append to the
existing slice otherwise (the test's callback type-asserts a slice there; the
non-slice fallback is unreachable in the scenarios proved below). -/
def appendCombiner : UpsertCb := fun exist valueInMap newValue =>
  if exist then
    match valueInMap with
    | GoValue.arr xs => GoValue.arr (xs ++ [newValue])
    | _ => GoValue.arr [newValue]
  else GoValue.arr [newValue]

/-- The frame relation of claim C10: same shard count, same shard-vector
length, and every other key has exactly the same presence and value. -/
def SameOtherKeys (m m2 : ConcurrentHashMap) (key : Key) : Prop :=
  m2.Shards = m.Shards ∧ m2.HashMap.length = m.HashMap.length ∧
  ∀ k2, k2 ≠ key → tableLookup m2 k2 = tableLookup m k2

theorem shardLookup_insert_self (s : Shard) (k : Key) (v : GoValue) :
    shardLookup (shardInsert s k v) k = some v := by
  induction s with
  | nil => simp [shardInsert, shardLookup]
  | cons p rest ih =>
    obtain ⟨k2, v2⟩ := p
    by_cases h : k2 = k
    · simp [shardInsert, h, shardLookup]
    · simp [shardInsert, h, shardLookup, ih]

theorem shardLookup_insert_other (s : Shard) (k k2 : Key) (v : GoValue)
    (hne : k2 ≠ k) : shardLookup (shardInsert s k v) k2 = shardLookup s k2 := by
  induction s with
  | nil => simp [shardInsert, shardLookup, Ne.symm hne]
  | cons p rest ih =>
    obtain ⟨k3, v3⟩ := p
    by_cases h : k3 = k
    · subst h
      simp [shardInsert, shardLookup, Ne.symm hne]
    · simp [shardInsert, h, shardLookup, ih]

theorem shardLookup_erase_self (s : Shard) (k : Key) :
    shardLookup (shardErase s k) k = none := by
  induction s with
  | nil => simp [shardErase, shardLookup]
  | cons p rest ih =>
    obtain ⟨k2, v2⟩ := p
    by_cases h : k2 = k
    · simp [shardErase, h, ih]
    · simp [shardErase, h, shardLookup, ih]

theorem shardLookup_erase_other (s : Shard) (k k2 : Key) (hne : k2 ≠ k) :
    shardLookup (shardErase s k) k2 = shardLookup s k2 := by
  induction s with
  | nil => simp [shardErase]
  | cons p rest ih =>
    obtain ⟨k3, v3⟩ := p
    by_cases h : k3 = k
    · subst h
      simp [shardErase, shardLookup, Ne.symm hne, ih]
    · simp [shardErase, h, shardLookup, ih]

theorem shardErase_of_absent (s : Shard) (k : Key) (h : shardLookup s k = none) :
    shardErase s k = s := by
  induction s with
  | nil => simp [shardErase]
  | cons p rest ih =>
    obtain ⟨k2, v2⟩ := p
    by_cases hk : k2 = k
    · simp [shardLookup, hk] at h
    · simp [shardLookup, hk] at h
      simp [shardErase, hk, ih h]

theorem list_set_self {α : Type} (l : List α) (i : Nat) (a : α)
    (h : l[i]? = some a) : l.set i a = l := by
  induction l generalizing i with
  | nil => simp at h
  | cons x xs ih =>
    cases i with
    | zero =>
      simp at h
      simp [List.set, h]
    | succ n =>
      simp at h
      simp [List.set, ih n h]

theorem op_bind_elim {β : Type} {m : ConcurrentHashMap} {key : Key}
    {f : Nat → Shard → Option β} {b : β}
    (h : ((shardIdx m key).bind fun i => (m.HashMap[i]?).bind fun s => f i s) = some b) :
    ∃ i s, shardIdx m key = some i ∧ m.HashMap[i]? = some s ∧ f i s = some b := by
  rcases Option.bind_eq_some.mp h with ⟨i, hi, h2⟩
  rcases Option.bind_eq_some.mp h2 with ⟨s, hs, h3⟩
  exact ⟨i, s, hi, hs, h3⟩

theorem tableLookup_elim {m : ConcurrentHashMap} {key : Key} {cur : Option GoValue}
    (h : tableLookup m key = some cur) :
    ∃ i s, shardIdx m key = some i ∧ m.HashMap[i]? = some s ∧ shardLookup s key = cur := by
  rcases Option.bind_eq_some.mp h with ⟨s, hs, h2⟩
  rcases Option.bind_eq_some.mp hs with ⟨i, hi, hs2⟩
  injection h2 with h3
  exact ⟨i, s, hi, hs2, h3⟩

theorem tableLookup_intro {m : ConcurrentHashMap} {key : Key} {i : Nat} {s : Shard}
    (hi : shardIdx m key = some i) (hs : m.HashMap[i]? = some s) :
    tableLookup m key = some (shardLookup s key) := by
  simp [tableLookup, GetShard, hi, hs]

theorem set_preserves_loc {m : ConcurrentHashMap} {key : Key} {i : Nat} {s : Shard}
    (s2 : Shard) (hi : shardIdx m key = some i) (hs : m.HashMap[i]? = some s) :
    shardIdx { m with HashMap := m.HashMap.set i s2 } key = some i ∧
      ({ m with HashMap := m.HashMap.set i s2 }).HashMap[i]? = some s2 := by
  have hilt : i < m.HashMap.length := (List.getElem?_eq_some.mp hs).1
  exact ⟨hi, List.getElem?_set_self hilt⟩

theorem tableLookup_set {m : ConcurrentHashMap} {key : Key} {i : Nat} {s : Shard}
    (s2 : Shard) (hi : shardIdx m key = some i) (hs : m.HashMap[i]? = some s) :
    tableLookup { m with HashMap := m.HashMap.set i s2 } key =
      some (shardLookup s2 key) := by
  obtain ⟨h1, h2⟩ := set_preserves_loc s2 hi hs
  exact tableLookup_intro h1 h2

theorem frame_core {m : ConcurrentHashMap} {key : Key} {i : Nat} {s : Shard}
    (s2 : Shard) (hi : shardIdx m key = some i) (hs : m.HashMap[i]? = some s)
    (hpres : ∀ k2, k2 ≠ key → shardLookup s2 k2 = shardLookup s k2) :
    SameOtherKeys m { m with HashMap := m.HashMap.set i s2 } key := by
  have hilt : i < m.HashMap.length := (List.getElem?_eq_some.mp hs).1
  have hsh : m.Shards ≠ 0 := by
    intro h0
    simp [shardIdx, h0] at hi
  refine ⟨rfl, by simp, ?_⟩
  intro k2 hk2
  have hidx : shardIdx m k2 = some (fnv32 k2 % m.Shards) := by
    simp [shardIdx, hsh]
  have hidx2 : shardIdx { m with HashMap := m.HashMap.set i s2 } k2 =
      some (fnv32 k2 % m.Shards) := hidx
  by_cases hij : fnv32 k2 % m.Shards = i
  · have h1 : (m.HashMap.set i s2)[fnv32 k2 % m.Shards]? = some s2 := by
      rw [hij]
      exact List.getElem?_set_self hilt
    have h2 : m.HashMap[fnv32 k2 % m.Shards]? = some s := by
      rw [hij]
      exact hs
    simp [tableLookup, GetShard, hidx, hidx2, h1, h2, hpres k2 hk2]
  · have h1 : (m.HashMap.set i s2)[fnv32 k2 % m.Shards]? =
        m.HashMap[fnv32 k2 % m.Shards]? :=
      List.getElem?_set_ne (fun h => hij h.symm)
    simp [tableLookup, GetShard, hidx, hidx2, h1]

theorem sameOtherKeys_refl (m : ConcurrentHashMap) (key : Key) :
    SameOtherKeys m m key := ⟨rfl, rfl, fun _ _ => rfl⟩

theorem fnv32Go_eq_foldl (key : Key) (h : Nat) :
    fnv32Go key h =
      key.foldl (fun h b => Nat.xor ((h * 16777619) % 2 ^ 32) b) h := by
  induction key generalizing h with
  | nil => rfl
  | cons b rest ih =>
    have h32 : (4294967296 : Nat) = 2 ^ 32 := by norm_num
    simp only [fnv32Go, List.foldl, ih, h32]

/-- C7: for every byte sequence the source hash `fnv32` computes exactly the
spec's algorithm — start at 2166136261 and for each byte in order multiply by
16777619 with unsigned 32-bit wraparound, then XOR the byte in. -/
theorem fnv32_matches_spec_algorithm (key : Key) : fnv32 key = fnv32SpecAlg key :=
  fnv32Go_eq_foldl key 2166136261

/-- C8 counterexample: the map's hash of "ABC" is not the value a standard
FNV-1a 32-bit implementation produces for "ABC".  The source multiplies before
XORing (FNV-1); standard FNV-1a XORs before multiplying, and the repository's
own test checks `fnv32` against Go's `fnv.New32()`, the FNV-1 variant. -/
theorem fnv32_ABC_not_fnv1a :
    fnv32 (strBytes "ABC") ≠ fnv1aRef (strBytes "ABC") := by decide

/-- C8 amended: hashing "ABC" yields 1665970155, the standard FNV-1 32-bit
reference value (the one Go's `fnv.New32()` produces, which the repository's
test compares against); the standard FNV-1a value for "ABC" is 1552166763,
which the map's hash does not produce. -/
theorem fnv32_ABC_value :
    fnv32 (strBytes "ABC") = 1665970155 ∧ fnv1aRef (strBytes "ABC") = 1552166763 := by
  constructor
  · decide
  · decide

/-- C9 counterexample: `New 0` reports no error — it returns a table (with
zero shards and an empty shard vector) instead of rejecting the invalid shard
count at construction time. -/
theorem new_zero_counterexample :
    New 0 = some { Shards := 0, HashMap := [] } ∧ New 0 ≠ none := by
  constructor
  · rfl
  · intro h
    simp [New] at h

/-- C9 amended: construction only fails for a negative shard count (Go's
`make` panics on a negative length); `New 0` succeeds and returns a table with
zero shards on which every keyed operation then panics at first use (the shard
index is computed modulo zero), so the invalid count is not rejected at
construction time. -/
theorem new_shard_validation :
    (∀ n : Int, n < 0 → New n = none) ∧
    (∀ n : Int, 0 ≤ n →
      New n = some { Shards := n.toNat, HashMap := List.replicate n.toNat [] }) ∧
    (∀ key : Key,
      tableLookup { Shards := 0, HashMap := [] } key = none ∧
      Get { Shards := 0, HashMap := [] } key = none ∧
      Set { Shards := 0, HashMap := [] } key GoValue.nil = none) := by
  refine ⟨?_, ?_, ?_⟩
  · intro n hn
    simp [New, hn]
  · intro n hn
    simp [New, not_lt.mpr hn]
  · intro key
    exact ⟨rfl, rfl, rfl⟩

/-- Witness for the amended C9 theorem at concrete shard counts. -/
theorem new_shard_validation_witness :
    New (-1) = none ∧
      New 2 = some { Shards := (2 : Int).toNat,
                     HashMap := List.replicate (2 : Int).toNat [] } :=
  ⟨new_shard_validation.1 (-1) (by decide), new_shard_validation.2.1 2 (by decide)⟩

/-- C1: `Upsert` always consults the combining callback exactly once — when
the key is absent the callback receives `exist = false` and Go's `nil` in
place of a current value — on the triple (present, currentValueOrNil,
newValue); it stores the callback's result under the key and returns that
result.  Consequently sequential Upserts on one key compose in call order:
from a fresh table, upserting "m" with dolphin and then whale under the
test's append combiner leaves the slice [dolphin, whale] stored. -/
theorem upsert_contract :
    (∀ (m : ConcurrentHashMap) (key : Key) (v : GoValue) (cb : UpsertCb)
        (cur : Option GoValue), tableLookup m key = some cur →
      ∃ m2, Upsert m key v cb = some (cb cur.isSome (cur.getD GoValue.nil) v, m2) ∧
        tableLookup m2 key = some (some (cb cur.isSome (cur.getD GoValue.nil) v))) ∧
    (∃ m0 m1 m2,
      New 4 = some m0 ∧
      Upsert m0 (strBytes "m") (GoValue.str "dolphin") appendCombiner =
        some (GoValue.arr [GoValue.str "dolphin"], m1) ∧
      Upsert m1 (strBytes "m") (GoValue.str "whale") appendCombiner =
        some (GoValue.arr [GoValue.str "dolphin", GoValue.str "whale"], m2) ∧
      tableLookup m2 (strBytes "m") =
        some (some (GoValue.arr [GoValue.str "dolphin", GoValue.str "whale"]))) := by
  constructor
  · intro m key v cb cur hcur
    rcases tableLookup_elim hcur with ⟨i, s, hi, hs, hsl⟩
    cases cur with
    | none =>
      refine ⟨{ m with HashMap := m.HashMap.set i (shardInsert s key (cb false GoValue.nil v)) }, ?_, ?_⟩
      · simp [Upsert, hi, hs, hsl]
      · rw [tableLookup_set _ hi hs, shardLookup_insert_self]
        simp
    | some w =>
      refine ⟨{ m with HashMap := m.HashMap.set i (shardInsert s key (cb true w v)) }, ?_, ?_⟩
      · simp [Upsert, hi, hs, hsl]
      · rw [tableLookup_set _ hi hs, shardLookup_insert_self]
        simp
  · exact ⟨_, _, _, rfl, rfl, rfl, rfl⟩

/-- Witness for C1: upserting into an empty single-shard table. -/
theorem upsert_contract_witness :
    ∃ m2, Upsert { Shards := 1, HashMap := [[]] } (strBytes "k") (GoValue.int 5)
        appendCombiner =
        some (appendCombiner (Option.isSome (none : Option GoValue))
          ((none : Option GoValue).getD GoValue.nil) (GoValue.int 5), m2) ∧
      tableLookup m2 (strBytes "k") =
        some (some (appendCombiner (Option.isSome (none : Option GoValue))
          ((none : Option GoValue).getD GoValue.nil) (GoValue.int 5))) :=
  upsert_contract.1 { Shards := 1, HashMap := [[]] } (strBytes "k") (GoValue.int 5)
    appendCombiner none rfl

/-- C2 counterexample: with the slice `arr [int 1]` stored under "k" and the
structurally equal slice supplied as expectedOld, the claim demands success
(return true and store the new value) — and its "every other case" demands a
false return with the map unchanged — yet the code panics comparing two Go
slices (`none`): it returns neither true nor false. -/
theorem setIfPresent_claim_counterexample :
    SetIfPresent { Shards := 1, HashMap := [[(strBytes "k", GoValue.arr [GoValue.int 1])]] }
        (strBytes "k") (GoValue.int 2) (GoValue.arr [GoValue.int 1]) = none ∧
      tableLookup { Shards := 1, HashMap := [[(strBytes "k", GoValue.arr [GoValue.int 1])]] }
        (strBytes "k") = some (some (GoValue.arr [GoValue.int 1])) :=
  ⟨rfl, rfl⟩

/-- C2 amended: provided the Go interface comparison of the current value with
expectedOld does not panic (it panics exactly when both are slices),
`SetIfPresent` returns true and stores the new value iff the key is present
and the current value compares equal to expectedOld; when the key is absent or
the comparison yields false it returns false and leaves the map unchanged;
and when the comparison panics the call produces no result at all. -/
theorem setIfPresent_cas (m : ConcurrentHashMap) (key : Key) (nv ov : GoValue) :
    (tableLookup m key = some none → SetIfPresent m key nv ov = some (false, m)) ∧
    (∀ val, tableLookup m key = some (some val) → goEq val ov = some true →
      ∃ m2, SetIfPresent m key nv ov = some (true, m2) ∧
        tableLookup m2 key = some (some nv)) ∧
    (∀ val, tableLookup m key = some (some val) → goEq val ov = some false →
      SetIfPresent m key nv ov = some (false, m)) ∧
    (∀ val, tableLookup m key = some (some val) → goEq val ov = none →
      SetIfPresent m key nv ov = none) := by
  refine ⟨?_, ?_, ?_, ?_⟩
  · intro hcur
    rcases tableLookup_elim hcur with ⟨i, s, hi, hs, hsl⟩
    simp [SetIfPresent, hi, hs, hsl]
  · intro val hcur heq
    rcases tableLookup_elim hcur with ⟨i, s, hi, hs, hsl⟩
    refine ⟨{ m with HashMap := m.HashMap.set i (shardInsert s key nv) }, ?_, ?_⟩
    · simp [SetIfPresent, hi, hs, hsl, heq]
    · rw [tableLookup_set _ hi hs, shardLookup_insert_self]
  · intro val hcur heq
    rcases tableLookup_elim hcur with ⟨i, s, hi, hs, hsl⟩
    simp [SetIfPresent, hi, hs, hsl, heq]
  · intro val hcur heq
    rcases tableLookup_elim hcur with ⟨i, s, hi, hs, hsl⟩
    simp [SetIfPresent, hi, hs, hsl, heq]

/-- Witness for the amended C2 theorem: a successful compare-and-swap on a
table holding `int 1` under "k". -/
theorem setIfPresent_cas_witness :
    ∃ m2, SetIfPresent { Shards := 1, HashMap := [[(strBytes "k", GoValue.int 1)]] }
        (strBytes "k") (GoValue.int 2) (GoValue.int 1) = some (true, m2) ∧
      tableLookup m2 (strBytes "k") = some (some (GoValue.int 2)) :=
  (setIfPresent_cas { Shards := 1, HashMap := [[(strBytes "k", GoValue.int 1)]] }
      (strBytes "k") (GoValue.int 2) (GoValue.int 1)).2.1 (GoValue.int 1) rfl rfl

/-- C3: when the key is present and its stored value is a slice,
`AddIfPresent` appends the new value to that slice (returning true); when the
key is absent it stores the value itself, unwrapped (returning false); and
when the key is present with a non-slice value the type assertion panics
rather than corrupting state. -/
theorem addIfPresent_asymmetry (m : ConcurrentHashMap) (key : Key) (v : GoValue) :
    (∀ xs, tableLookup m key = some (some (GoValue.arr xs)) →
      ∃ m2, AddIfPresent m key v = some (true, m2) ∧
        tableLookup m2 key = some (some (GoValue.arr (xs ++ [v])))) ∧
    (tableLookup m key = some none →
      ∃ m2, AddIfPresent m key v = some (false, m2) ∧
        tableLookup m2 key = some (some v)) ∧
    (∀ w, tableLookup m key = some (some w) → (∀ xs, w ≠ GoValue.arr xs) →
      AddIfPresent m key v = none) := by
  refine ⟨?_, ?_, ?_⟩
  · intro xs hcur
    rcases tableLookup_elim hcur with ⟨i, s, hi, hs, hsl⟩
    refine ⟨{ m with
        HashMap := m.HashMap.set i (shardInsert s key (GoValue.arr (xs ++ [v]))) }, ?_, ?_⟩
    · simp [AddIfPresent, hi, hs, hsl]
    · rw [tableLookup_set _ hi hs, shardLookup_insert_self]
  · intro hcur
    rcases tableLookup_elim hcur with ⟨i, s, hi, hs, hsl⟩
    refine ⟨{ m with HashMap := m.HashMap.set i (shardInsert s key v) }, ?_, ?_⟩
    · simp [AddIfPresent, hi, hs, hsl]
    · rw [tableLookup_set _ hi hs, shardLookup_insert_self]
  · intro w hcur hw
    rcases tableLookup_elim hcur with ⟨i, s, hi, hs, hsl⟩
    cases w with
    | arr xs => exact absurd rfl (hw xs)
    | nil => simp [AddIfPresent, hi, hs, hsl]
    | str a => simp [AddIfPresent, hi, hs, hsl]
    | int a => simp [AddIfPresent, hi, hs, hsl]

/-- Witness for C3: appending to a stored slice and replacing an absent key. -/
theorem addIfPresent_asymmetry_witness :
    ∃ m2, AddIfPresent { Shards := 1, HashMap := [[(strBytes "k", GoValue.arr [GoValue.int 1])]] }
        (strBytes "k") (GoValue.int 2) = some (true, m2) ∧
      tableLookup m2 (strBytes "k") =
        some (some (GoValue.arr ([GoValue.int 1] ++ [GoValue.int 2]))) :=
  (addIfPresent_asymmetry
      { Shards := 1, HashMap := [[(strBytes "k", GoValue.arr [GoValue.int 1])]] }
      (strBytes "k") (GoValue.int 2)).1 [GoValue.int 1] rfl

/-- C4: `SetIfAbsent` inserts only when the key is currently missing and
returns whether the insert happened; after a successful insert of v1, a second
`SetIfAbsent` with v2 returns false and leaves v1 (and the whole table)
untouched. -/
theorem setIfAbsent_insert_once (m : ConcurrentHashMap) (key : Key) (v1 v2 : GoValue) :
    (tableLookup m key = some none →
      ∃ m2, SetIfAbsent m key v1 = some (true, m2) ∧
        tableLookup m2 key = some (some v1) ∧
        SetIfAbsent m2 key v2 = some (false, m2)) ∧
    (∀ w, tableLookup m key = some (some w) →
      SetIfAbsent m key v1 = some (false, m)) := by
  constructor
  · intro hcur
    rcases tableLookup_elim hcur with ⟨i, s, hi, hs, hsl⟩
    obtain ⟨hi2, hs2⟩ := set_preserves_loc (shardInsert s key v1) hi hs
    refine ⟨{ m with HashMap := m.HashMap.set i (shardInsert s key v1) }, ?_, ?_, ?_⟩
    · simp [SetIfAbsent, hi, hs, hsl]
    · rw [tableLookup_set _ hi hs, shardLookup_insert_self]
    · simp [SetIfAbsent, hi2, hs2, shardLookup_insert_self]
  · intro w hcur
    rcases tableLookup_elim hcur with ⟨i, s, hi, hs, hsl⟩
    simp [SetIfAbsent, hi, hs, hsl]

/-- Witness for C4: inserting twice under "k" in an empty single-shard
table. -/
theorem setIfAbsent_insert_once_witness :
    ∃ m2, SetIfAbsent { Shards := 1, HashMap := [[]] } (strBytes "k")
        (GoValue.int 1) = some (true, m2) ∧
      tableLookup m2 (strBytes "k") = some (some (GoValue.int 1)) ∧
      SetIfAbsent m2 (strBytes "k") (GoValue.int 2) = some (false, m2) :=
  (setIfAbsent_insert_once { Shards := 1, HashMap := [[]] } (strBytes "k")
      (GoValue.int 1) (GoValue.int 2)).1 rfl

/-- C5: `Pop` on a present key returns the stored value with present = true
and removes the key — afterwards `Get` reports absent and a second `Pop`
reports absent (and changes nothing); `Pop` on an absent key returns
not-present and leaves the table exactly unchanged. -/
theorem pop_removes (m : ConcurrentHashMap) (key : Key) :
    (∀ v, tableLookup m key = some (some v) →
      ∃ m2, Pop m key = some (v, true, m2) ∧
        tableLookup m2 key = some none ∧
        Get m2 key = some (GoValue.nil, false) ∧
        Pop m2 key = some (GoValue.nil, false, m2)) ∧
    (tableLookup m key = some none → Pop m key = some (GoValue.nil, false, m)) := by
  constructor
  · intro v hcur
    rcases tableLookup_elim hcur with ⟨i, s, hi, hs, hsl⟩
    obtain ⟨hi2, hs2⟩ := set_preserves_loc (shardErase s key) hi hs
    refine ⟨{ m with HashMap := m.HashMap.set i (shardErase s key) }, ?_, ?_, ?_, ?_⟩
    · simp [Pop, hi, hs, hsl]
    · rw [tableLookup_set _ hi hs, shardLookup_erase_self]
    · simp [Get, GetShard, hi2, hs2, shardLookup_erase_self]
    · simp [Pop, hi2, hs2, shardLookup_erase_self,
        shardErase_of_absent _ _ (shardLookup_erase_self s key), List.set_set]
  · intro hcur
    rcases tableLookup_elim hcur with ⟨i, s, hi, hs, hsl⟩
    simp [Pop, hi, hs, hsl, shardErase_of_absent s key hsl, list_set_self _ _ _ hs]

/-- Witness for C5: popping the one binding of a single-shard table. -/
theorem pop_removes_witness :
    ∃ m2, Pop { Shards := 1, HashMap := [[(strBytes "k", GoValue.int 7)]] }
        (strBytes "k") = some (GoValue.int 7, true, m2) ∧
      tableLookup m2 (strBytes "k") = some none ∧
      Get m2 (strBytes "k") = some (GoValue.nil, false) ∧
      Pop m2 (strBytes "k") = some (GoValue.nil, false, m2) :=
  (pop_removes { Shards := 1, HashMap := [[(strBytes "k", GoValue.int 7)]] }
      (strBytes "k")).1 (GoValue.int 7) rfl

/-- C6: `Update` replaces the stored value only when the key is present and
returns whether it did; `UpdateCb` invokes the callback and stores its result
only when the key is present; on an absent key both return false and leave the
table exactly unchanged (so the callback is never consulted and the key stays
absent). -/
theorem update_only_if_present (m : ConcurrentHashMap) (key : Key) (v : GoValue)
    (cb : UpsertCb) :
    (∀ w, tableLookup m key = some (some w) →
      (∃ m2, Update m key v = some (true, m2) ∧
        tableLookup m2 key = some (some v)) ∧
      (∃ m2, UpdateCb m key v cb = some (true, m2) ∧
        tableLookup m2 key = some (some (cb true w v)))) ∧
    (tableLookup m key = some none →
      Update m key v = some (false, m) ∧ UpdateCb m key v cb = some (false, m)) := by
  constructor
  · intro w hcur
    rcases tableLookup_elim hcur with ⟨i, s, hi, hs, hsl⟩
    constructor
    · refine ⟨{ m with HashMap := m.HashMap.set i (shardInsert s key v) }, ?_, ?_⟩
      · simp [Update, hi, hs, hsl]
      · rw [tableLookup_set _ hi hs, shardLookup_insert_self]
    · refine ⟨{ m with HashMap := m.HashMap.set i (shardInsert s key (cb true w v)) }, ?_, ?_⟩
      · simp [UpdateCb, hi, hs, hsl]
      · rw [tableLookup_set _ hi hs, shardLookup_insert_self]
  · intro hcur
    rcases tableLookup_elim hcur with ⟨i, s, hi, hs, hsl⟩
    constructor
    · simp [Update, hi, hs, hsl]
    · simp [UpdateCb, hi, hs, hsl]

/-- Witness for C6: updating a present key and an absent key. -/
theorem update_only_if_present_witness :
    (∃ m2, Update { Shards := 1, HashMap := [[(strBytes "k", GoValue.int 1)]] }
        (strBytes "k") (GoValue.int 9) = some (true, m2) ∧
      tableLookup m2 (strBytes "k") = some (some (GoValue.int 9))) ∧
    (∃ m2, UpdateCb { Shards := 1, HashMap := [[(strBytes "k", GoValue.int 1)]] }
        (strBytes "k") (GoValue.int 9) appendCombiner = some (true, m2) ∧
      tableLookup m2 (strBytes "k") =
        some (some (appendCombiner true (GoValue.int 1) (GoValue.int 9)))) :=
  (update_only_if_present { Shards := 1, HashMap := [[(strBytes "k", GoValue.int 1)]] }
      (strBytes "k") (GoValue.int 9) appendCombiner).1 (GoValue.int 1) rfl

/-- C10: every single-key operation applied to key k leaves every other key's
presence and stored value exactly as before — in the same shard or any other —
and leaves the shard count and the shard vector's length unchanged (whenever
the operation completes without panicking). -/
theorem single_key_ops_frame (m : ConcurrentHashMap) (key : Key) :
    (∀ v m2, Set m key v = some m2 → SameOtherKeys m m2 key) ∧
    (∀ m2, Remove m key = some m2 → SameOtherKeys m m2 key) ∧
    (∀ v b m2, Pop m key = some (v, b, m2) → SameOtherKeys m m2 key) ∧
    (∀ v b m2, SetIfAbsent m key v = some (b, m2) → SameOtherKeys m m2 key) ∧
    (∀ nv ov b m2, SetIfPresent m key nv ov = some (b, m2) → SameOtherKeys m m2 key) ∧
    (∀ v b m2, AddIfPresent m key v = some (b, m2) → SameOtherKeys m m2 key) ∧
    (∀ v cb r m2, Upsert m key v cb = some (r, m2) → SameOtherKeys m m2 key) ∧
    (∀ v b m2, Update m key v = some (b, m2) → SameOtherKeys m m2 key) ∧
    (∀ v cb b m2, UpdateCb m key v cb = some (b, m2) → SameOtherKeys m m2 key) := by
  refine ⟨?_, ?_, ?_, ?_, ?_, ?_, ?_, ?_, ?_⟩
  · intro v m2 h
    rcases op_bind_elim h with ⟨i, s, hi, hs, hf⟩
    injection hf with hf
    subst hf
    exact frame_core _ hi hs (fun k2 hk2 => shardLookup_insert_other s key k2 v hk2)
  · intro m2 h
    rcases op_bind_elim h with ⟨i, s, hi, hs, hf⟩
    injection hf with hf
    subst hf
    exact frame_core _ hi hs (fun k2 hk2 => shardLookup_erase_other s key k2 hk2)
  · intro v b m2 h
    rcases op_bind_elim h with ⟨i, s, hi, hs, hf⟩
    cases hsl : shardLookup s key with
    | some w =>
      simp only [hsl, Option.some.injEq, Prod.mk.injEq] at hf
      obtain ⟨h1, h2, h3⟩ := hf
      subst h3
      exact frame_core _ hi hs (fun k2 hk2 => shardLookup_erase_other s key k2 hk2)
    | none =>
      simp only [hsl, Option.some.injEq, Prod.mk.injEq] at hf
      obtain ⟨h1, h2, h3⟩ := hf
      subst h3
      exact frame_core _ hi hs (fun k2 hk2 => shardLookup_erase_other s key k2 hk2)
  · intro v b m2 h
    rcases op_bind_elim h with ⟨i, s, hi, hs, hf⟩
    cases hsl : shardLookup s key with
    | some w =>
      simp only [hsl, Option.some.injEq, Prod.mk.injEq] at hf
      obtain ⟨h1, h2⟩ := hf
      subst h2
      exact sameOtherKeys_refl m key
    | none =>
      simp only [hsl, Option.some.injEq, Prod.mk.injEq] at hf
      obtain ⟨h1, h2⟩ := hf
      subst h2
      exact frame_core _ hi hs (fun k2 hk2 => shardLookup_insert_other s key k2 v hk2)
  · intro nv ov b m2 h
    rcases op_bind_elim h with ⟨i, s, hi, hs, hf⟩
    cases hsl : shardLookup s key with
    | some w =>
      rw [hsl] at hf
      rcases Option.bind_eq_some.mp hf with ⟨eq, heq, hif⟩
      cases eq with
      | true =>
        simp only [if_true, Option.some.injEq, Prod.mk.injEq] at hif
        obtain ⟨h1, h2⟩ := hif
        subst h2
        exact frame_core _ hi hs (fun k2 hk2 => shardLookup_insert_other s key k2 nv hk2)
      | false =>
        simp only [Bool.false_eq_true, if_false, Option.some.injEq, Prod.mk.injEq] at hif
        obtain ⟨h1, h2⟩ := hif
        subst h2
        exact sameOtherKeys_refl m key
    | none =>
      simp only [hsl, Option.some.injEq, Prod.mk.injEq] at hf
      obtain ⟨h1, h2⟩ := hf
      subst h2
      exact sameOtherKeys_refl m key
  · intro v b m2 h
    rcases op_bind_elim h with ⟨i, s, hi, hs, hf⟩
    cases hsl : shardLookup s key with
    | some w =>
      cases w with
      | arr xs =>
        simp only [hsl, Option.some.injEq, Prod.mk.injEq] at hf
        obtain ⟨h1, h2⟩ := hf
        subst h2
        exact frame_core _ hi hs
          (fun k2 hk2 => shardLookup_insert_other s key k2 (GoValue.arr (xs ++ [v])) hk2)
      | nil => simp [hsl] at hf
      | str a => simp [hsl] at hf
      | int a => simp [hsl] at hf
    | none =>
      simp only [hsl, Option.some.injEq, Prod.mk.injEq] at hf
      obtain ⟨h1, h2⟩ := hf
      subst h2
      exact frame_core _ hi hs (fun k2 hk2 => shardLookup_insert_other s key k2 v hk2)
  · intro v cb r m2 h
    rcases op_bind_elim h with ⟨i, s, hi, hs, hf⟩
    cases hsl : shardLookup s key with
    | some w =>
      simp only [hsl, Option.some.injEq, Prod.mk.injEq] at hf
      obtain ⟨h1, h2⟩ := hf
      subst h2
      exact frame_core _ hi hs
        (fun k2 hk2 => shardLookup_insert_other s key k2 (cb true w v) hk2)
    | none =>
      simp only [hsl, Option.some.injEq, Prod.mk.injEq] at hf
      obtain ⟨h1, h2⟩ := hf
      subst h2
      exact frame_core _ hi hs
        (fun k2 hk2 => shardLookup_insert_other s key k2 (cb false GoValue.nil v) hk2)
  · intro v b m2 h
    rcases op_bind_elim h with ⟨i, s, hi, hs, hf⟩
    cases hsl : shardLookup s key with
    | some w =>
      simp only [hsl, Option.some.injEq, Prod.mk.injEq] at hf
      obtain ⟨h1, h2⟩ := hf
      subst h2
      exact frame_core _ hi hs (fun k2 hk2 => shardLookup_insert_other s key k2 v hk2)
    | none =>
      simp only [hsl, Option.some.injEq, Prod.mk.injEq] at hf
      obtain ⟨h1, h2⟩ := hf
      subst h2
      exact sameOtherKeys_refl m key
  · intro v cb b m2 h
    rcases op_bind_elim h with ⟨i, s, hi, hs, hf⟩
    cases hsl : shardLookup s key with
    | some w =>
      simp only [hsl, Option.some.injEq, Prod.mk.injEq] at hf
      obtain ⟨h1, h2⟩ := hf
      subst h2
      exact frame_core _ hi hs
        (fun k2 hk2 => shardLookup_insert_other s key k2 (cb true w v) hk2)
    | none =>
      simp only [hsl, Option.some.injEq, Prod.mk.injEq] at hf
      obtain ⟨h1, h2⟩ := hf
      subst h2
      exact sameOtherKeys_refl m key

/-- Witness for C10: a concrete Set into an empty single-shard table preserves
every other key, the shard count and the shard vector. -/
theorem single_key_ops_frame_witness :
    SameOtherKeys { Shards := 1, HashMap := [[]] }
      { Shards := 1, HashMap := [[(strBytes "a", GoValue.int 7)]] } (strBytes "a") :=
  (single_key_ops_frame { Shards := 1, HashMap := [[]] } (strBytes "a")).1
    (GoValue.int 7) { Shards := 1, HashMap := [[(strBytes "a", GoValue.int 7)]] } rfl

end Cmap
